import Mathlib

/-!
Verification development for the `md_generator` tool (`src/main.rs`), a
one-shot Markdown report generator.  Strings are modelled as `List Char`;
the two regular expressions of the source are modelled by explicit
executable matchers with the leftmost greedy semantics of the `regex`
crate; file I/O is modelled by an explicit file-system map
`List Char → Option (List Char)` and an event trace.
-/

namespace MdGen

/-- The character class complement `[^:/\0]` of the source's regexes:
`isExcluded c` holds for the three excluded characters `:`, `/`, NUL. -/
def isExcluded (c : Char) : Bool :=
  c == ':' || c == '/' || c == Char.ofNat 0

/-- A character admitted by the class `[^:/\0]`. -/
def okc (c : Char) : Bool := !isExcluded c

/-- Rust `str::split(sep)` semantics: split at every occurrence of `sep`,
keeping empty chunks; the empty string yields one empty chunk. -/
def splitOnChar (sep : Char) : List Char → List (List Char)
  | [] => [[]]
  | c :: rest =>
    match splitOnChar sep rest with
    | [] => [[c]]
    | r :: rs => if c == sep then [] :: r :: rs else (c :: r) :: rs

/-- Joining chunks with a single separator character (used to state the
round-trip property of the split). -/
def joinSep (sep : Char) : List (List Char) → List Char
  | [] => []
  | [x] => x
  | x :: xs => x ++ sep :: joinSep sep xs

/-- One block of the pattern `(\/?[^:/\0]+)+`: an optional `/` followed by a
non-empty greedy run of characters from `[^:/\0]`.  Returns the matched
block and the remaining input, or `none` if no block matches here. -/
def matchBlock : List Char → Option (List Char × List Char)
  | [] => none
  | c :: rest =>
    if c == '/' then
      let run := rest.takeWhile okc
      if run.isEmpty then none
      else some ('/' :: run, rest.dropWhile okc)
    else
      let run := (c :: rest).takeWhile okc
      if run.isEmpty then none
      else some (run, (c :: rest).dropWhile okc)

/-- Greedy repetition of further blocks (fuelled; each block consumes at
least one character, so fuel `= length` is always enough). -/
def matchMore : Nat → List Char → List Char × List Char
  | 0, l => ([], l)
  | fuel + 1, l =>
    match matchBlock l with
    | none => ([], l)
    | some (m, rest) =>
      let p := matchMore fuel rest
      (m ++ p.1, p.2)

/-- The match of `(\/?[^:/\0]+)+` anchored at the start of `l`, if any
(greedy, as the `regex` crate produces for this pattern). -/
def matchAt (l : List Char) : Option (List Char) :=
  match matchBlock l with
  | none => none
  | some (m, rest) => some (m ++ (matchMore rest.length rest).1)

/-- The leftmost match of `(\/?[^:/\0]+)+` in `l`, if any: this models
`Regex::captures` returning the overall match text. -/
def findMatch : List Char → Option (List Char)
  | [] => none
  | c :: rest =>
    match matchAt (c :: rest) with
    | some m => some m
    | none => findMatch rest

/-- One validated group of file paths (`struct AssignmentFiles`). -/
structure AssignmentFiles where
  paths : List (List Char)
deriving DecidableEq, Repr

/-- Error message `"{} is not a valid path"` (no-match branch). -/
def pathInvalidMsg1 (p : List Char) : List Char :=
  p ++ " is not a valid path".data

/-- Error message `"{} is not a valid path."` (partial-match branch). -/
def pathInvalidMsg2 (p : List Char) : List Char :=
  p ++ " is not a valid path.".data

/-- The per-token validation loop of `AssignmentFiles::from_str`: each token
must have a leftmost regex match equal to the whole token; tokens are
collected in order, the first failure aborts. -/
def validatePaths : List (List Char) → Except (List Char) (List (List Char))
  | [] => .ok []
  | p :: ps =>
    match findMatch p with
    | none => .error (pathInvalidMsg1 p)
    | some m =>
      if m = p then
        match validatePaths ps with
        | .error e => .error e
        | .ok v => .ok (p :: v)
      else .error (pathInvalidMsg2 p)

/-- Model of `AssignmentFiles::from_str`: split the raw option value on `' '`,
reject when no tokens result (dead branch: the split always yields at least
one chunk), validate every token against the path regex. -/
def from_str (s : List Char) : Except (List Char) AssignmentFiles :=
  let paths := splitOnChar ' ' s
  if paths.length = 0 then .error "No file paths have been supplied.".data
  else
    match validatePaths paths with
    | .error e => .error e
    | .ok v => .ok ⟨v⟩

instance exceptDecEq {ε α : Type} [DecidableEq ε] [DecidableEq α] :
    DecidableEq (Except ε α)
  | .ok x, .ok y =>
    if h : x = y then .isTrue (by rw [h])
    else .isFalse (by intro he; cases he; exact h rfl)
  | .ok _, .error _ => .isFalse (by intro he; cases he)
  | .error _, .ok _ => .isFalse (by intro he; cases he)
  | .error e, .error f =>
    if h : e = f then .isTrue (by rw [h])
    else .isFalse (by intro he; cases he; exact h rfl)

/-- Executable copy of `Except.isOk`. -/
def isOkE {ε α : Type} : Except ε α → Bool
  | .ok _ => true
  | .error _ => false

/-- Success value of an `Except`, if any. -/
def okValue {ε α : Type} : Except ε α → Option α
  | .ok a => some a
  | .error _ => none

example : from_str "a/b c".data = .ok ⟨["a/b".data, "c".data]⟩ := by decide
example : isOkE (from_str "a ".data) = false := by decide
example : isOkE (from_str "".data) = false := by decide
example : isOkE (from_str "a:b".data) = false := by decide
example : from_str "/a/b/c.cpp".data = .ok ⟨["/a/b/c.cpp".data]⟩ := by decide
example : isOkE (from_str "a//b".data) = false := by decide
example : isOkE (from_str "a/b/".data) = false := by decide

/-- Fuelled version of the `find_iter` of `([^:/\0]+)+` in
`get_file_name_from_path`: the successive non-overlapping matches are
exactly the maximal runs of characters from `[^:/\0]`. -/
def runsF : Nat → List Char → List (List Char)
  | 0, _ => []
  | _ + 1, [] => []
  | n + 1, c :: rest =>
    if okc c then (c :: rest.takeWhile okc) :: runsF n (rest.dropWhile okc)
    else runsF n rest

/-- All matches of `([^:/\0]+)+` in `l`, in order. -/
def runs (l : List Char) : List (List Char) := runsF l.length l

/-- Model of `get_file_name_from_path`: last match of `([^:/\0]+)+`; `none` models
the `unwrap` panic when the path has no such match. -/
def get_file_name_from_path (p : List Char) : Option (List Char) :=
  (runs p).getLast?

/-- Fuelled `find_iter` of the extension regex `\.[^:/\0]{1,3}`: at a dot,
greedily take up to three following class characters (at least one),
then continue after the match; otherwise advance one character. -/
def extMatchesF : Nat → List Char → List (List Char)
  | 0, _ => []
  | _ + 1, [] => []
  | n + 1, c :: rest =>
    if c == '.' then
      let run := (rest.takeWhile okc).take 3
      if run.isEmpty then extMatchesF n rest
      else ('.' :: run) :: extMatchesF n (rest.drop run.length)
    else extMatchesF n rest

/-- All matches of `\.[^:/\0]{1,3}` in `l`, in order. -/
def extMatches (l : List Char) : List (List Char) := extMatchesF l.length l

/-- The two extension-classification failures of
`get_escape_expression_from_file_extension` (the source formats them as
`"Unsupported extension {}."` and
`"No extension was found for file with name '{}' on path '{}'."`). -/
inductive EscErr where
  | unsupported (ext : List Char)
  | missing (file filePath : List Char)
deriving DecidableEq, Repr

/-- Model of `get_escape_expression_from_file_extension`: classify the last match of
the extension regex in the file name through the fixed table. -/
def get_escape_expression_from_file_extension (file filePath : List Char) :
    Except EscErr (List Char) :=
  match (extMatches file).getLast? with
  | some r =>
    if r = ".c".data ∨ r = ".h".data then .ok "c".data
    else if r = ".cpp".data ∨ r = ".hpp".data then .ok "cpp".data
    else .error (.unsupported r)
  | none => .error (.missing file filePath)

example : get_escape_expression_from_file_extension "main.c".data "/x/main.c".data
    = .ok "c".data := by decide
example : get_escape_expression_from_file_extension "x.py".data "/x.py".data
    = .error (.unsupported ".py".data) := by decide
example : get_escape_expression_from_file_extension "noext".data "/noext".data
    = .error (.missing "noext".data "/noext".data) := by decide
example : get_file_name_from_path "/a/b/c.cpp".data = some "c.cpp".data := by decide

/-- Decimal digit character for `d < 10`. -/
def digitChar (d : Nat) : Char := Char.ofNat (48 + d)

/-- Fuelled decimal rendering of a natural number (the behaviour of Rust's
`Display` for unsigned integers). -/
def natCharsF : Nat → Nat → List Char
  | 0, _ => []
  | fuel + 1, n =>
    if n < 10 then [digitChar n]
    else natCharsF fuel (n / 10) ++ [digitChar (n % 10)]

/-- Decimal rendering of a natural number. -/
def natStr (n : Nat) : List Char := natCharsF (n + 1) n

example : natStr 3 = "3".data := by decide
example : natStr 10 = "10".data := by decide
example : natStr 255 = "255".data := by decide

/-- The parsed command line (`struct Args`); `cls` models the `class`
option and `week`/`student_number` the `u8`/`u32` fields. -/
structure Args where
  name : List Char
  cls : List Char
  student_number : Nat
  assignment_files : List AssignmentFiles
  tutorial : Bool
  week : Nat
  output_file : Option (List Char)

/-- Model of `write_header_on_file`: the bytes the header writes, with the date
string (produced externally by `chrono`) passed as a parameter. -/
def write_header_on_file (args : Args) (date : List Char) : List Char :=
  let h1_text :=
    if args.tutorial then "# Tutorial week ".data ++ natStr args.week ++ "  \n".data
    else "# Assignment week ".data ++ natStr args.week ++ "  \n".data
  let student_name_text := "Name: ".data ++ args.name ++ "  \n".data
  let student_number_text :=
    "Student number: ".data ++ natStr args.student_number ++ "  \n".data
  let class_text := "Class: ".data ++ args.cls ++ "  \n".data
  let date_text := "Date: ".data ++ date ++ "  \n".data
  h1_text ++ "  \n".data ++ student_name_text ++ student_number_text
    ++ class_text ++ date_text ++ "  \n".data

/-- One observable side effect of `write_assignments`: a write of bytes to
the buffered output, or a full read of an input file. -/
inductive Event where
  | write (bytes : List Char)
  | read (filePath : List Char)
deriving DecidableEq, Repr

/-- How a run of the writer can abort (`?` propagation in the source). -/
inductive RunError where
  | panicked
  | esc (e : EscErr)
  | ioOpen (filePath : List Char)
deriving DecidableEq, Repr

/-- The body of the inner loop of `write_assignments` for one path: write
the `### File:` heading, resolve the language tag (abort on failure), write
the opening fence, open and fully read the input file (abort on failure),
write its bytes, write the closing fence.  Returns the events that happened
together with the error that aborted the run, if any. -/
def write_file_block (fs : List Char → Option (List Char)) (p : List Char) :
    List Event × Option RunError :=
  match get_file_name_from_path p with
  | none => ([], some .panicked)
  | some file_name =>
    let headingEv := Event.write ("### File: ".data ++ file_name ++ "  \n  \n".data)
    match get_escape_expression_from_file_extension file_name p with
    | .error e => ([headingEv], some (.esc e))
    | .ok tag =>
      let fenceEv := Event.write ("```".data ++ tag ++ "\n".data)
      match fs p with
      | none => ([headingEv, fenceEv], some (.ioOpen p))
      | some contents =>
        ([headingEv, fenceEv, .read p, .write contents,
          .write "```  \n".data], none)

/-- The inner loop of `write_assignments` over one group's paths,
short-circuiting on the first error. -/
def write_paths (fs : List Char → Option (List Char)) :
    List (List Char) → List Event × Option RunError
  | [] => ([], none)
  | p :: ps =>
    let b := write_file_block fs p
    match b.2 with
    | some e => (b.1, some e)
    | none =>
      let r := write_paths fs ps
      (b.1 ++ r.1, r.2)

/-- The group heading line written by `write_assignments`
(`"## Tutorial {}  \n  \n"` / `"## Assignment {}  \n  \n"`). -/
def group_heading (tutorial : Bool) (i : Nat) : List Char :=
  (if tutorial then "## Tutorial ".data else "## Assignment ".data)
    ++ natStr i ++ "  \n  \n".data

/-- The outer loop of `write_assignments` over the groups, `i` being the
1-based number of the next group (`enumerate` index plus one). -/
def write_groups (fs : List Char → Option (List Char)) (tutorial : Bool) :
    Nat → List (List (List Char)) → List Event × Option RunError
  | _, [] => ([], none)
  | i, g :: gs =>
    let hEv := Event.write (group_heading tutorial i)
    let r := write_paths fs g
    match r.2 with
    | some e => (hEv :: r.1, some e)
    | none =>
      let r2 := write_groups fs tutorial (i + 1) gs
      (hEv :: r.1 ++ r2.1, r2.2)

/-- Model of `write_assignments`. -/
def write_assignments (fs : List Char → Option (List Char)) (args : Args) :
    List Event × Option RunError :=
  write_groups fs args.tutorial 1 (args.assignment_files.map AssignmentFiles.paths)

/-- Bytes contributed by an event to the output file. -/
def eventBytes : Event → List Char
  | .write b => b
  | .read _ => []

/-- The output-file contents produced by a trace. -/
def docOf (t : List Event) : List Char := (t.map eventBytes).flatten

/-- The output path chosen by `main`: the `--output-file` value, or
`week<N>.md` by default. -/
def output_path (args : Args) : List Char :=
  match args.output_file with
  | some p => p
  | none => "week".data ++ natStr args.week ++ ".md".data

/-- Model of `main` after argument parsing: the output path, the bytes written to it
(header then assignment sections), and the aborting error, if any. -/
def run_main (fs : List Char → Option (List Char)) (args : Args)
    (date : List Char) : List Char × List Char × Option RunError :=
  let r := write_assignments fs args
  (output_path args, write_header_on_file args date ++ docOf r.1, r.2)

/-! Spec-side definitions, written from the specification's words, used to
state the claims against the code model above. -/

/-- The final path segment in the words of the spec: the text after the
last `/`, or the whole string when there is no `/`. -/
def afterLastSlash (p : List Char) : List Char :=
  (p.reverse.takeWhile (fun c => c != '/')).reverse

/-- The lines of a document, splitting at every newline. -/
def linesOf (doc : List Char) : List (List Char) := splitOnChar '\n' doc

/-- A Markdown closing code fence on a line of its own: at most three
leading spaces, at least three backticks, then only spaces. -/
def isClosingFence (l : List Char) : Bool :=
  let rest := l.dropWhile (fun c => c == ' ')
  decide ((l.takeWhile (fun c => c == ' ')).length ≤ 3)
    && decide (3 ≤ (rest.takeWhile (fun c => c == '`')).length)
    && (rest.dropWhile (fun c => c == '`')).all (fun c => c == ' ')

/-- Whether `pat` occurs contiguously in `l`. -/
def hasSub (pat l : List Char) : Bool :=
  l.tails.any (fun t => pat.isPrefixOf t)

/-- The claim's reading of PathListParser: split on spaces into the
non-empty tokens, fail when there are none, fail when a token is not fully
matched by the path pattern, and otherwise return exactly those tokens. -/
def c1ClaimAt (s : List Char) : Prop :=
  let toks := (splitOnChar ' ' s).filter (fun t => !t.isEmpty)
  (toks = [] ∧ isOkE (from_str s) = false)
  ∨ (toks ≠ [] ∧ (∃ t ∈ toks, ¬findMatch t = some t) ∧ isOkE (from_str s) = false)
  ∨ (toks ≠ [] ∧ (∀ t ∈ toks, findMatch t = some t)
      ∧ okValue (from_str s) = some ⟨toks⟩)

/-- The concrete file system of the end-to-end scenario: a single file
`foo.c` holding the six bytes `int x;`. -/
def fsFoo (p : List Char) : Option (List Char) :=
  if p = "foo.c".data then some "int x;".data else none

/-- The concrete arguments of the end-to-end scenario of claim C4. -/
def argsC4 : Args :=
  ⟨"A".data, "B".data, 1, [⟨["foo.c".data]⟩], false, 3, none⟩

/-- The claim's reading of the C4 scenario: the block body line `int x;`
is followed by a closing fence on a line of its own. -/
def c4ClaimAt (date : List Char) : Prop :=
  let r := run_main fsFoo argsC4 date
  r.1 = "week3.md".data
  ∧ "# Assignment week 3".data.isPrefixOf r.2.1 = true
  ∧ (let ls := linesOf r.2.1
     (List.range ls.length).any (fun i =>
       decide (ls.getD i [] = "```c".data)
         && decide (ls.getD (i + 1) [] = "int x;".data)
         && isClosingFence (ls.getD (i + 2) [])) = true)

/-- Whether an event is a read of an input file. -/
def isReadEv : Event → Bool
  | .read _ => true
  | .write _ => false

/-- Whether an event is a write to the output. -/
def isWriteEv : Event → Bool
  | .write _ => true
  | .read _ => false

/-- The claim's reading of C5 on a single file block: no write occurs
before the first read in the block's trace. -/
def noWriteBeforeFirstRead (t : List Event) : Bool :=
  match t.findIdx? isReadEv with
  | none => true
  | some r => (t.take r).all (fun e => !isWriteEv e)

/-- A group heading event: a write whose bytes start with `## `. -/
def isHeadingEv (e : Event) : Bool :=
  match e with
  | .write b => "## ".data.isPrefixOf b
  | .read _ => false

/-- The group headings emitted in a trace, in order. -/
def headingsOf (t : List Event) : List (List Char) :=
  (t.filter isHeadingEv).map eventBytes

/-- The greedy match of `\.[^:/\0]{1,3}` starting at position `i` of
`file`, if any. -/
def extMatchAtPos (file : List Char) (i : Nat) : Option (List Char) :=
  match file.drop i with
  | '.' :: t =>
    let run := (t.takeWhile okc).take 3
    if run.isEmpty then none else some ('.' :: run)
  | _ => none

/-- The last (rightmost, greedily extended) substring of `file` matching
`\.[^:/\0]{1,3}`, written from the spec's words "locate the last substring
matching 'a dot followed by one to three non-separator characters'". -/
def specLastExt (file : List Char) : Option (List Char) :=
  ((List.range file.length).filterMap (extMatchAtPos file)).getLast?

/-- The claim's reading of LanguageTagResolver: classify the last
substring of the display name matching the extension pattern through the
fixed table. -/
def c2ClaimAt (file filePath : List Char) : Prop :=
  match specLastExt file with
  | some e =>
    if e = ".c".data ∨ e = ".h".data then
      get_escape_expression_from_file_extension file filePath = .ok "c".data
    else if e = ".cpp".data ∨ e = ".hpp".data then
      get_escape_expression_from_file_extension file filePath = .ok "cpp".data
    else
      get_escape_expression_from_file_extension file filePath
        = .error (.unsupported e)
  | none =>
    get_escape_expression_from_file_extension file filePath
      = .error (.missing file filePath)

instance c2ClaimDecidable (file filePath : List Char) :
    Decidable (c2ClaimAt file filePath) := by
  unfold c2ClaimAt
  cases specLastExt file <;> infer_instance

example :
    (run_main fsFoo argsC4 "12/10/2025".data).2.1 =
      ("# Assignment week 3  \n  \nName: A  \nStudent number: 1  \nClass: B  \n"
        ++ "Date: 12/10/2025  \n  \n## Assignment 1  \n  \n### File: foo.c  \n  \n"
        ++ "```c\nint x;```  \n").data := by decide

example : (run_main fsFoo argsC4 "12/10/2025".data).2.2 = none := by decide

/-! Generic list helpers. -/

theorem mem_getLast?_self {α : Type} {l : List α} {d : α}
    (h : l.getLast? = some d) : d ∈ l := by
  induction l with
  | nil => simp at h
  | cons a l ih =>
    cases l with
    | nil =>
      simp only [List.getLast?_singleton, Option.some.injEq] at h
      simp [h]
    | cons b l2 =>
      rw [List.getLast?_cons_cons] at h
      exact List.mem_cons_of_mem _ (ih h)

theorem getLast?_of_ne_nil {α : Type} {l : List α} (h : l ≠ []) :
    ∃ d, l.getLast? = some d := by
  cases hg : l.getLast? with
  | some d => exact ⟨d, rfl⟩
  | none => exact absurd (List.getLast?_eq_none_iff.mp hg) h

theorem length_dropWhile_le' {α : Type} (p : α → Bool) (l : List α) :
    (l.dropWhile p).length ≤ l.length := by
  induction l with
  | nil => simp
  | cons a l ih =>
    by_cases h : p a = true
    · simp only [List.dropWhile_cons, h, if_true, List.length_cons]
      omega
    · simp [List.dropWhile_cons, h]

theorem takeWhile_append_of_all {α : Type} (p : α → Bool) (a b : List α)
    (h : ∀ c ∈ a, p c = true) : (a ++ b).takeWhile p = a ++ b.takeWhile p := by
  induction a with
  | nil => simp
  | cons x a ih =>
    have hx : p x = true := h x (by simp)
    simp only [List.cons_append, List.takeWhile_cons, hx, if_true]
    rw [ih fun c hc => h c (by simp [hc])]

theorem takeWhile_append_of_exists {α : Type} (p : α → Bool) (a b : List α)
    (h : ∃ c ∈ a, p c = false) : (a ++ b).takeWhile p = a.takeWhile p := by
  induction a with
  | nil => simp at h
  | cons x a ih =>
    by_cases hx : p x = true
    · obtain ⟨c, hc, hcp⟩ := h
      rcases List.mem_cons.mp hc with rfl | hc2
      · rw [hx] at hcp; cases hcp
      · simp only [List.cons_append, List.takeWhile_cons, hx, if_true]
        rw [ih ⟨c, hc2, hcp⟩]
    · simp only [List.cons_append, List.takeWhile_cons]
      rw [Bool.not_eq_true] at hx
      simp [hx]

/-! Facts about `splitOnChar` and `joinSep`. -/

theorem splitOnChar_ne_nil (sep : Char) (l : List Char) :
    splitOnChar sep l ≠ [] := by
  induction l with
  | nil => simp [splitOnChar]
  | cons c rest ih =>
    simp only [splitOnChar]
    cases h : splitOnChar sep rest with
    | nil => simp
    | cons r rs => by_cases hc : c == sep <;> simp [hc]

theorem joinSep_cons_head (sep c : Char) (r : List Char)
    (rs : List (List Char)) :
    joinSep sep ((c :: r) :: rs) = c :: joinSep sep (r :: rs) := by
  cases rs <;> simp [joinSep]

theorem joinSep_splitOnChar (sep : Char) (l : List Char) :
    joinSep sep (splitOnChar sep l) = l := by
  induction l with
  | nil => simp [splitOnChar, joinSep]
  | cons c rest ih =>
    simp only [splitOnChar]
    cases h : splitOnChar sep rest with
    | nil => exact absurd h (splitOnChar_ne_nil sep rest)
    | cons r rs =>
      rw [h] at ih
      by_cases hc : c == sep
      · have hceq : c = sep := by simpa using hc
        subst hceq
        simp [hc, joinSep, ih]
      · replace hc : (c == sep) = false := by simpa using hc
        simp only [hc, Bool.false_eq_true, if_false]
        rw [joinSep_cons_head, ih]

theorem splitOnChar_append_cons (sep : Char) (a b : List Char)
    (h : ∀ c ∈ a, ¬(c = sep)) :
    splitOnChar sep (a ++ sep :: b) = a :: splitOnChar sep b := by
  induction a with
  | nil =>
    simp only [List.nil_append, splitOnChar]
    cases hb : splitOnChar sep b with
    | nil => exact absurd hb (splitOnChar_ne_nil sep b)
    | cons r rs => simp
  | cons x a ih =>
    have hx : ¬(x = sep) := h x (by simp)
    have ih2 := ih fun c hc => h c (by simp [hc])
    rw [List.cons_append]
    simp only [splitOnChar, ih2]
    simp [hx]

theorem splitOnChar_of_not_mem (sep : Char) (l : List Char)
    (h : ∀ c ∈ l, ¬(c = sep)) : splitOnChar sep l = [l] := by
  induction l with
  | nil => simp [splitOnChar]
  | cons c rest ih =>
    have hc : ¬(c = sep) := h c (by simp)
    simp only [splitOnChar]
    rw [ih fun d hd => h d (by simp [hd])]
    simp [hc]

/-! Soundness of the path-pattern matcher: any matched text is non-empty,
contains only `/` and class characters (in particular neither `:` nor NUL),
and ends in a class character (in particular not in `/`). -/

theorem matchBlock_sound {l m rest : List Char}
    (h : matchBlock l = some (m, rest)) :
    m ≠ [] ∧ (∀ c ∈ m, c = '/' ∨ okc c = true) ∧
      ∃ d, m.getLast? = some d ∧ okc d = true := by
  cases l with
  | nil => simp [matchBlock] at h
  | cons c cs =>
    simp only [matchBlock] at h
    by_cases hc : (c == '/') = true
    · simp only [hc, if_true] at h
      split at h
      · cases h
      · rename_i hrun
        simp only [Option.some.injEq, Prod.mk.injEq] at h
        obtain ⟨hm, _⟩ := h
        subst hm
        have hrun2 : cs.takeWhile okc ≠ [] := by
          intro he
          rw [he] at hrun
          simp at hrun
        refine ⟨by simp, ?_, ?_⟩
        · intro d hd
          rcases List.mem_cons.mp hd with rfl | hd2
          · exact Or.inl rfl
          · exact Or.inr (List.mem_takeWhile_imp hd2)
        · obtain ⟨d, hd⟩ := getLast?_of_ne_nil hrun2
          refine ⟨d, ?_, List.mem_takeWhile_imp (mem_getLast?_self hd)⟩
          have hsplit : ('/' :: cs.takeWhile okc) = ['/'] ++ cs.takeWhile okc := rfl
          rw [hsplit, List.getLast?_append_of_ne_nil ['/'] hrun2, hd]
    · simp only [hc, Bool.false_eq_true, if_false] at h
      split at h
      · cases h
      · rename_i hrun
        simp only [Option.some.injEq, Prod.mk.injEq] at h
        obtain ⟨hm, _⟩ := h
        subst hm
        have hrun2 : (c :: cs).takeWhile okc ≠ [] := by
          intro he
          rw [he] at hrun
          simp at hrun
        refine ⟨hrun2, ?_, ?_⟩
        · intro d hd
          exact Or.inr (List.mem_takeWhile_imp hd)
        · obtain ⟨d, hd⟩ := getLast?_of_ne_nil hrun2
          exact ⟨d, hd, List.mem_takeWhile_imp (mem_getLast?_self hd)⟩

theorem matchMore_sound {fuel : Nat} {l m rest : List Char}
    (h : matchMore fuel l = (m, rest)) :
    (∀ c ∈ m, c = '/' ∨ okc c = true) ∧
      (m = [] ∨ ∃ d, m.getLast? = some d ∧ okc d = true) := by
  induction fuel generalizing l m rest with
  | zero =>
    simp only [matchMore, Prod.mk.injEq] at h
    obtain ⟨hm, _⟩ := h
    subst hm
    exact ⟨by simp, Or.inl rfl⟩
  | succ fuel ih =>
    simp only [matchMore] at h
    cases hb : matchBlock l with
    | none =>
      rw [hb] at h
      simp only [Prod.mk.injEq] at h
      obtain ⟨hm, _⟩ := h
      subst hm
      exact ⟨by simp, Or.inl rfl⟩
    | some pr =>
      obtain ⟨mb, restb⟩ := pr
      rw [hb] at h
      simp only [Prod.mk.injEq] at h
      obtain ⟨hm, _⟩ := h
      obtain ⟨hb1, hb2, d, hd, hdok⟩ := matchBlock_sound hb
      obtain ⟨ih1, ih2⟩ := ih (show matchMore fuel restb
        = ((matchMore fuel restb).1, (matchMore fuel restb).2) from rfl)
      subst hm
      constructor
      · intro c hc
        rcases List.mem_append.mp hc with hcl | hcr
        · exact hb2 c hcl
        · exact ih1 c hcr
      · rcases ih2 with hnil | ⟨e, he, heok⟩
        · rw [hnil]
          simp only [List.append_nil]
          exact Or.inr ⟨d, hd, hdok⟩
        · refine Or.inr ⟨e, ?_, heok⟩
          rw [List.getLast?_append_of_ne_nil, he]
          intro hcon
          rw [hcon] at he
          simp at he

theorem matchAt_sound {l m : List Char} (h : matchAt l = some m) :
    m ≠ [] ∧ (∀ c ∈ m, c = '/' ∨ okc c = true) ∧
      ∃ d, m.getLast? = some d ∧ okc d = true := by
  simp only [matchAt] at h
  cases hb : matchBlock l with
  | none => rw [hb] at h; cases h
  | some pr =>
    obtain ⟨mb, restb⟩ := pr
    rw [hb] at h
    simp only [Option.some.injEq] at h
    obtain ⟨hb1, hb2, d, hd, hdok⟩ := matchBlock_sound hb
    obtain ⟨ih1, ih2⟩ := matchMore_sound (show matchMore restb.length restb
      = ((matchMore restb.length restb).1, (matchMore restb.length restb).2) from rfl)
    subst h
    refine ⟨by simp [hb1], ?_, ?_⟩
    · intro c hc
      rcases List.mem_append.mp hc with hcl | hcr
      · exact hb2 c hcl
      · exact ih1 c hcr
    · rcases ih2 with hnil | ⟨e, he, heok⟩
      · rw [hnil]
        simp only [List.append_nil]
        exact ⟨d, hd, hdok⟩
      · refine ⟨e, ?_, heok⟩
        rw [List.getLast?_append_of_ne_nil, he]
        intro hcon
        rw [hcon] at he
        simp at he

theorem findMatch_sound {l m : List Char} (h : findMatch l = some m) :
    m ≠ [] ∧ (∀ c ∈ m, c = '/' ∨ okc c = true) ∧
      ∃ d, m.getLast? = some d ∧ okc d = true := by
  induction l with
  | nil => simp [findMatch] at h
  | cons c cs ih =>
    simp only [findMatch] at h
    cases ha : matchAt (c :: cs) with
    | some m2 =>
      rw [ha] at h
      simp only [Option.some.injEq] at h
      subst h
      exact matchAt_sound ha
    | none =>
      rw [ha] at h
      exact ih h

/-- A token that the validation accepts (the leftmost match equals the
token) is non-empty, free of `:` and NUL, and ends in a class character. -/
theorem accepted_token_sound {p : List Char} (h : findMatch p = some p) :
    p ≠ [] ∧ (∀ c ∈ p, ¬(c = ':') ∧ ¬(c = Char.ofNat 0)) ∧
      ∃ d, p.getLast? = some d ∧ okc d = true := by
  obtain ⟨h1, h2, h3⟩ := findMatch_sound h
  refine ⟨h1, ?_, h3⟩
  intro c hc
  rcases h2 c hc with rfl | hok
  · exact ⟨by decide, by decide⟩
  · have := hok
    simp only [okc, isExcluded, Bool.not_eq_eq_eq_not, Bool.not_true,
      Bool.or_eq_false_iff, beq_eq_false_iff_ne, ne_eq] at this
    exact ⟨this.1.1, this.2⟩

/-! Facts about the validation loop and `from_str`. -/

theorem validatePaths_ok {ps v : List (List Char)}
    (h : validatePaths ps = .ok v) :
    v = ps ∧ ∀ p ∈ ps, findMatch p = some p := by
  induction ps generalizing v with
  | nil =>
    simp only [validatePaths, Except.ok.injEq] at h
    simp [← h]
  | cons p ps ih =>
    simp only [validatePaths] at h
    cases hf : findMatch p with
    | none => simp only [hf] at h; cases h
    | some m =>
      simp only [hf] at h
      by_cases hm : m = p
      · rw [if_pos hm] at h
        cases hv : validatePaths ps with
        | error e => simp only [hv] at h; cases h
        | ok w =>
          simp only [hv, Except.ok.injEq] at h
          obtain ⟨hw, hall⟩ := ih hv
          subst hm
          constructor
          · rw [← h, hw]
          · intro q hq
            rcases List.mem_cons.mp hq with rfl | hq2
            · exact hf
            · exact hall q hq2
      · rw [if_neg hm] at h; cases h

theorem validatePaths_all_ok {ps : List (List Char)}
    (h : ∀ p ∈ ps, findMatch p = some p) : validatePaths ps = .ok ps := by
  induction ps with
  | nil => rfl
  | cons p ps ih =>
    have hp := h p (by simp)
    have hih := ih fun q hq => h q (by simp [hq])
    simp [validatePaths, hp, hih]

theorem validatePaths_err {ps : List (List Char)}
    (h : ∃ p ∈ ps, ¬findMatch p = some p) :
    isOkE (validatePaths ps) = false := by
  induction ps with
  | nil => simp at h
  | cons p ps ih =>
    obtain ⟨q, hq, hqf⟩ := h
    simp only [validatePaths]
    cases hf : findMatch p with
    | none => simp [isOkE]
    | some m =>
      simp only [hf]
      by_cases hm : m = p
      · rw [if_pos hm]
        have hq2 : q ∈ ps := by
          rcases List.mem_cons.mp hq with rfl | h2
          · subst hm; exact absurd hf hqf
          · exact h2
        have hps := ih ⟨q, hq2, hqf⟩
        cases hv : validatePaths ps with
        | error e => simp [hv, isOkE]
        | ok w => rw [hv] at hps; simp [isOkE] at hps
      · rw [if_neg hm]; simp [isOkE]

theorem from_str_unfold (s : List Char) :
    from_str s = match validatePaths (splitOnChar ' ' s) with
      | .error e => .error e
      | .ok v => .ok ⟨v⟩ := by
  have h := splitOnChar_ne_nil ' ' s
  simp only [from_str]
  rw [if_neg]
  simpa using h

theorem from_str_ok_of_all {s : List Char}
    (h : ∀ t ∈ splitOnChar ' ' s, findMatch t = some t) :
    from_str s = .ok ⟨splitOnChar ' ' s⟩ := by
  rw [from_str_unfold, validatePaths_all_ok h]

theorem from_str_err_of_bad_token {s t : List Char}
    (ht : t ∈ splitOnChar ' ' s) (hnot : ¬findMatch t = some t) :
    isOkE (from_str s) = false := by
  rw [from_str_unfold]
  have herr := validatePaths_err ⟨t, ht, hnot⟩
  cases hv : validatePaths (splitOnChar ' ' s) with
  | error e => simp [isOkE]
  | ok w => rw [hv] at herr; simp [isOkE] at herr

instance c1ClaimDecidable (s : List Char) : Decidable (c1ClaimAt s) := by
  unfold c1ClaimAt
  infer_instance

/-- C1 (counterexample): the claim reads the parser as splitting into
*non-empty* tokens, so on the input `"a "` it predicts success with the
single token `a`; the code, which keeps the empty token produced by the
trailing space, rejects `"a "`. -/
theorem c1_counterexample : ¬c1ClaimAt "a ".data := by decide

/-- C1 (amended): PathListParser splits its input on the space character
into tokens, *empty tokens included* (so leading, trailing or doubled
spaces yield empty tokens, which never match the pattern); the zero-token
failure cannot arise since splitting yields at least one token; it fails
with ValidationError when some token does not fully match the pattern
`(\/?[^:/\0]+)+`, and otherwise returns the ordered token list as a
Group. -/
theorem c1_pathListParser (s : List Char) :
    ((∀ t ∈ splitOnChar ' ' s, findMatch t = some t) →
        from_str s = .ok ⟨splitOnChar ' ' s⟩)
    ∧ ((∃ t ∈ splitOnChar ' ' s, ¬findMatch t = some t) →
        isOkE (from_str s) = false)
    ∧ splitOnChar ' ' s ≠ [] := by
  exact ⟨from_str_ok_of_all,
    fun ⟨t, ht, hnot⟩ => from_str_err_of_bad_token ht hnot,
    splitOnChar_ne_nil ' ' s⟩

/-- C1 (witness): on `"a/b c"` all tokens match and the parser returns
them in order. -/
theorem c1_witness :
    from_str "a/b c".data = .ok ⟨["a/b".data, "c".data]⟩ :=
  (c1_pathListParser "a/b c".data).1 (by decide)

/-- C8: PathListParser fails on the lone empty string, and fails whenever
some space-separated token contains `:` or the NUL character. -/
theorem c8_rejects (s t : List Char) :
    isOkE (from_str "".data) = false
    ∧ (t ∈ splitOnChar ' ' s → (':' ∈ t ∨ Char.ofNat 0 ∈ t) →
        isOkE (from_str s) = false) := by
  refine ⟨by decide, fun ht hbad => ?_⟩
  refine from_str_err_of_bad_token ht fun hf => ?_
  obtain ⟨-, hclean, -⟩ := accepted_token_sound hf
  rcases hbad with hb | hb
  · exact (hclean ':' hb).1 rfl
  · exact (hclean _ hb).2 rfl

/-- C8 (witness): a token containing `:` is rejected. -/
theorem c8_witness : isOkE (from_str "x:y".data) = false :=
  (c8_rejects "x:y".data "x:y".data).2 (by decide) (Or.inl (by decide))

/-- C9: for every input accepted by PathListParser, re-joining the
resulting Group's tokens with single spaces restores the original
string. -/
theorem c9_roundtrip (s : List Char) (g : AssignmentFiles)
    (h : from_str s = .ok g) : joinSep ' ' g.paths = s := by
  rw [from_str_unfold] at h
  cases hv : validatePaths (splitOnChar ' ' s) with
  | error e => rw [hv] at h; cases h
  | ok v =>
    rw [hv] at h
    obtain ⟨hveq, -⟩ := validatePaths_ok hv
    cases h
    simpa [hveq] using joinSep_splitOnChar ' ' s

/-- C9 (witness): round trip on `"a b"`. -/
theorem c9_witness :
    joinSep ' ' (AssignmentFiles.mk ["a".data, "b".data]).paths = "a b".data :=
  c9_roundtrip "a b".data ⟨["a".data, "b".data]⟩ (by decide)

/-! Facts about the maximal-run matcher behind `get_file_name_from_path`. -/

theorem dropWhile_head_false {α : Type} (p : α → Bool) :
    ∀ {l : List α} {x : α} {xs : List α}, l.dropWhile p = x :: xs → p x = false := by
  intro l
  induction l with
  | nil => intro x xs h; cases h
  | cons a l ih =>
    intro x xs h
    by_cases pa : p a = true
    · rw [List.dropWhile_cons, if_pos pa] at h
      exact ih h
    · rw [List.dropWhile_cons, if_neg pa] at h
      injection h with h1 _
      subst h1
      simpa using pa

theorem mem_of_mem_dropWhile {α : Type} (p : α → Bool) :
    ∀ {l : List α} {x : α}, x ∈ l.dropWhile p → x ∈ l := by
  intro l
  induction l with
  | nil => intro x h; simp at h
  | cons a l ih =>
    intro x h
    rw [List.dropWhile_cons] at h
    by_cases pa : p a = true
    · rw [if_pos pa] at h
      exact List.mem_cons_of_mem _ (ih h)
    · rw [if_neg pa] at h
      exact h

theorem okc_ne_slash {x : Char} (h : okc x = true) : ¬(x = '/') := by
  intro he
  subst he
  exact absurd h (by decide)

theorem runsF_eq : ∀ {n m : Nat} {l : List Char},
    l.length ≤ n → l.length ≤ m → runsF n l = runsF m l := by
  intro n
  induction n with
  | zero =>
    intro m l h1 _
    have hl : l = [] := by
      cases l with
      | nil => rfl
      | cons c rest => simp at h1
    subst hl
    cases m <;> rfl
  | succ n ih =>
    intro m l h1 h2
    cases l with
    | nil => cases m <;> rfl
    | cons c rest =>
      cases m with
      | zero => simp at h2
      | succ m =>
        simp only [List.length_cons, Nat.succ_le_succ_iff] at h1 h2
        simp only [runsF]
        by_cases hc : okc c = true
        · simp only [hc, if_true]
          have hd := length_dropWhile_le' okc rest
          rw [ih (Nat.le_trans hd h1) (Nat.le_trans hd h2)]
        · replace hc : okc c = false := by simpa using hc
          simp only [hc, Bool.false_eq_true, if_false]
          exact ih h1 h2

theorem runs_cons_ok {c : Char} {rest : List Char} (hc : okc c = true) :
    runs (c :: rest) =
      (c :: rest.takeWhile okc) :: runs (rest.dropWhile okc) := by
  simp only [runs, List.length_cons, runsF, hc, if_true]
  have hd := length_dropWhile_le' okc rest
  rw [runsF_eq hd (Nat.le_refl _)]

theorem runs_cons_ex {c : Char} {rest : List Char} (hc : okc c = false) :
    runs (c :: rest) = runs rest := by
  simp only [runs, List.length_cons, runsF, hc, Bool.false_eq_true, if_false]

theorem runs_all_ok {l : List Char} (h : ∀ c ∈ l, okc c = true)
    (hne : l ≠ []) : runs l = [l] := by
  cases l with
  | nil => exact absurd rfl hne
  | cons c rest =>
    rw [runs_cons_ok (h c (by simp))]
    have ht : rest.takeWhile okc = rest :=
      List.takeWhile_eq_self_iff.mpr fun x hx => h x (by simp [hx])
    have hd : rest.dropWhile okc = [] :=
      List.dropWhile_eq_nil_iff.mpr fun x hx => h x (by simp [hx])
    rw [ht, hd]
    rfl

theorem afterLastSlash_of_no_slash {p : List Char}
    (h : ∀ c ∈ p, ¬(c = '/')) : afterLastSlash p = p := by
  unfold afterLastSlash
  have ht : p.reverse.takeWhile (fun c => c != '/') = p.reverse :=
    List.takeWhile_eq_self_iff.mpr fun x hx => by
      simpa using h x (List.mem_reverse.mp hx)
  rw [ht, List.reverse_reverse]

theorem afterLastSlash_append {a d : List Char} (hd : '/' ∈ d) :
    afterLastSlash (a ++ d) = afterLastSlash d := by
  unfold afterLastSlash
  rw [List.reverse_append,
    takeWhile_append_of_exists _ _ _ ⟨'/', List.mem_reverse.mpr hd, by simp⟩]

theorem afterLastSlash_slash_cons {rest : List Char}
    (h : ¬('/' ∈ rest)) : afterLastSlash ('/' :: rest) = rest := by
  unfold afterLastSlash
  have hrw : ('/' :: rest).reverse = rest.reverse ++ ['/'] := by simp
  rw [hrw, takeWhile_append_of_all _ _ _ fun x hx => by
    simp only [bne_iff_ne, ne_eq, decide_eq_true_eq]
    intro he
    exact h (he ▸ List.mem_reverse.mp hx)]
  simp

theorem lastRun_aux : ∀ (n : Nat) (p : List Char), p.length ≤ n →
    (∀ c ∈ p, c = '/' ∨ okc c = true) → p ≠ [] →
    (∃ d, p.getLast? = some d ∧ okc d = true) →
    (runs p).getLast? = some (afterLastSlash p) ∧ afterLastSlash p ≠ [] := by
  intro n
  induction n with
  | zero =>
    intro p h1 _ hne _
    cases p with
    | nil => exact absurd rfl hne
    | cons c rest => simp at h1
  | succ n ih =>
    intro p hlen hgood hne hlast
    cases p with
    | nil => exact absurd rfl hne
    | cons c rest =>
      simp only [List.length_cons, Nat.succ_le_succ_iff] at hlen
      by_cases hc : okc c = true
      · rw [runs_cons_ok hc]
        by_cases hdnil : rest.dropWhile okc = []
        · have hallrest : ∀ x ∈ rest, okc x = true :=
            List.dropWhile_eq_nil_iff.mp hdnil
          have ht : rest.takeWhile okc = rest :=
            List.takeWhile_eq_self_iff.mpr hallrest
          have hnos : ∀ x ∈ c :: rest, ¬(x = '/') := by
            intro x hx
            rcases List.mem_cons.mp hx with rfl | hx2
            · exact okc_ne_slash hc
            · exact okc_ne_slash (hallrest x hx2)
          rw [ht, hdnil, afterLastSlash_of_no_slash hnos]
          exact ⟨rfl, by simp⟩
        · obtain ⟨e, d2, hdcase⟩ : ∃ e d2, rest.dropWhile okc = e :: d2 := by
            cases hx : rest.dropWhile okc with
            | nil => exact absurd hx hdnil
            | cons e d2 => exact ⟨e, d2, rfl⟩
          have hex : okc e = false := dropWhile_head_false okc hdcase
          have hemem : e ∈ rest :=
            mem_of_mem_dropWhile okc (by rw [hdcase]; simp)
          have hes : e = '/' := by
            rcases hgood e (List.mem_cons_of_mem _ hemem) with h | h
            · exact h
            · rw [hex] at h; cases h
          have hrest : rest.takeWhile okc ++ rest.dropWhile okc = rest :=
            List.takeWhile_append_dropWhile okc rest
          have hdlen : (rest.dropWhile okc).length ≤ n :=
            Nat.le_trans (length_dropWhile_le' okc rest) hlen
          have hdgood : ∀ x ∈ rest.dropWhile okc, x = '/' ∨ okc x = true :=
            fun x hx => hgood x
              (List.mem_cons_of_mem _ (mem_of_mem_dropWhile okc hx))
          have hsplitp : c :: rest = (c :: rest.takeWhile okc)
              ++ rest.dropWhile okc := by
            rw [List.cons_append, hrest]
          have hdlast : ∃ d0, (rest.dropWhile okc).getLast? = some d0
              ∧ okc d0 = true := by
            obtain ⟨d0, hd0, hd0ok⟩ := hlast
            refine ⟨d0, ?_, hd0ok⟩
            rw [hsplitp] at hd0
            rw [← List.getLast?_append_of_ne_nil
              (c :: rest.takeWhile okc) hdnil, hd0]
          obtain ⟨ih1, ih2⟩ := ih (rest.dropWhile okc) hdlen hdgood hdnil hdlast
          have hrne : runs (rest.dropWhile okc) ≠ [] := by
            intro hh
            rw [hh] at ih1
            cases ih1
          have hslash : '/' ∈ rest.dropWhile okc := by
            rw [hdcase, hes]
            simp
          constructor
          · have hcons : (c :: rest.takeWhile okc) :: runs (rest.dropWhile okc)
                = [c :: rest.takeWhile okc] ++ runs (rest.dropWhile okc) := rfl
            rw [hcons, List.getLast?_append_of_ne_nil _ hrne, ih1,
              hsplitp, afterLastSlash_append hslash]
          · rw [hsplitp, afterLastSlash_append hslash]
            exact ih2
      · replace hc : okc c = false := by simpa using hc
        have hcs : c = '/' := by
          rcases hgood c (by simp) with h | h
          · exact h
          · rw [hc] at h; cases h
        rw [runs_cons_ex hc]
        have hrne : rest ≠ [] := by
          intro hh
          subst hh
          obtain ⟨d0, hd0, hd0ok⟩ := hlast
          simp only [List.getLast?_singleton, Option.some.injEq] at hd0
          rw [← hd0] at hd0ok
          rw [hd0ok] at hc
          cases hc
        have hrestlast : ∃ d0, rest.getLast? = some d0 ∧ okc d0 = true := by
          obtain ⟨d0, hd0, hd0ok⟩ := hlast
          refine ⟨d0, ?_, hd0ok⟩
          have hsp : c :: rest = [c] ++ rest := rfl
          rw [hsp, List.getLast?_append_of_ne_nil [c] hrne] at hd0
          exact hd0
        have hrgood : ∀ x ∈ rest, x = '/' ∨ okc x = true :=
          fun x hx => hgood x (List.mem_cons_of_mem _ hx)
        obtain ⟨ih1, ih2⟩ := ih rest hlen hrgood hrne hrestlast
        by_cases hsl : '/' ∈ rest
        · have hsp : c :: rest = [c] ++ rest := rfl
          rw [hsp, afterLastSlash_append hsl]
          exact ⟨ih1, ih2⟩
        · have hnos : ∀ x ∈ rest, ¬(x = '/') := fun x hx he => hsl (he ▸ hx)
          have hals : afterLastSlash rest = rest :=
            afterLastSlash_of_no_slash hnos
          rw [hcs, afterLastSlash_slash_cons hsl]
          refine ⟨by rw [ih1, hals], ?_⟩
          rw [hals] at ih2
          exact ih2

/-- Any token accepted by the path validation has a well-defined file
name: the last maximal `[^:/\0]` run, which is the text after the last
slash. -/
theorem accepted_gfnfp {p : List Char} (h : findMatch p = some p) :
    get_file_name_from_path p = some (afterLastSlash p)
      ∧ afterLastSlash p ≠ [] := by
  obtain ⟨hne, hgood, hlast⟩ := findMatch_sound h
  obtain ⟨h1, h2⟩ := lastRun_aux p.length p (Nat.le_refl _) hgood hne hlast
  exact ⟨h1, h2⟩

theorem from_str_token_accepted {s p : List Char} {g : AssignmentFiles}
    (h : from_str s = .ok g) (hp : p ∈ g.paths) : findMatch p = some p := by
  rw [from_str_unfold] at h
  cases hv : validatePaths (splitOnChar ' ' s) with
  | error e => rw [hv] at h; cases h
  | ok v =>
    rw [hv] at h
    cases h
    obtain ⟨hveq, hall⟩ := validatePaths_ok hv
    exact hall p (hveq ▸ hp)

/-- C3: for every path in a Group produced by PathListParser,
`get_file_name_from_path` returns the final path segment — the text after
the last `/`, or the whole string when there is no `/` — and on the spec's
examples it returns `c.cpp` for both `/a/b/c.cpp` and `c.cpp`. -/
theorem c3_nameExtractor (s p : List Char) (g : AssignmentFiles)
    (h : from_str s = .ok g) (hp : p ∈ g.paths) :
    get_file_name_from_path p = some (afterLastSlash p)
    ∧ get_file_name_from_path "/a/b/c.cpp".data = some "c.cpp".data
    ∧ get_file_name_from_path "c.cpp".data = some "c.cpp".data :=
  ⟨(accepted_gfnfp (from_str_token_accepted h hp)).1, by decide, by decide⟩

/-- C3 (witness): on the validated path `/a/b/c.cpp` the extractor returns
the text after the last slash. -/
theorem c3_witness :
    get_file_name_from_path "/a/b/c.cpp".data
      = some (afterLastSlash "/a/b/c.cpp".data) :=
  (c3_nameExtractor "/a/b/c.cpp".data "/a/b/c.cpp".data ⟨["/a/b/c.cpp".data]⟩
    (by decide) (by decide)).1

/-- C10: every token accepted by the path validation contains at least one
maximal `[^:/\0]` run, never ends in `/`, and so
`get_file_name_from_path` finds a last match (the `unwrap` cannot panic)
and its result is a non-empty name. -/
theorem c10_no_panic (p : List Char) (h : findMatch p = some p) :
    runs p ≠ [] ∧ p.getLast? ≠ some '/'
    ∧ ∃ name, get_file_name_from_path p = some name ∧ name ≠ [] := by
  obtain ⟨h1, h2⟩ := accepted_gfnfp h
  obtain ⟨hne, hgood, d, hd, hdok⟩ := findMatch_sound h
  refine ⟨?_, ?_, afterLastSlash p, h1, h2⟩
  · intro hh
    simp only [get_file_name_from_path] at h1
    rw [hh] at h1
    cases h1
  · intro hh
    rw [hd] at hh
    injection hh with h3
    rw [h3] at hdok
    exact absurd hdok (by decide)

/-- C10 (witness): instantiated on the accepted token `a/b.c`. -/
theorem c10_witness :
    runs "a/b.c".data ≠ [] ∧ ("a/b.c".data : List Char).getLast? ≠ some '/'
    ∧ ∃ name, get_file_name_from_path "a/b.c".data = some name ∧ name ≠ [] :=
  c10_no_panic "a/b.c".data (by decide)

/-- C2 (counterexample): on the display name `a.b.cpp` the last substring
matching `\.[^:/\0]{1,3}` is `.cpp`, so the claim predicts tag `cpp`; but
the character class includes the dot itself, so the code's left-to-right
non-overlapping `find_iter` produces the single match `.b.c` and fails
with the unsupported error carrying `.b.c`. -/
theorem c2_counterexample : ¬c2ClaimAt "a.b.cpp".data "/a.b.cpp".data := by
  decide

theorem extMatchesF_sound :
    ∀ {fuel : Nat} {l m : List Char}, m ∈ extMatchesF fuel l →
      ∃ t, m = '.' :: t ∧ t ≠ [] ∧ t.length ≤ 3 ∧ ∀ c ∈ t, okc c = true := by
  intro fuel
  induction fuel with
  | zero => intro l m h; simp [extMatchesF] at h
  | succ fuel ih =>
    intro l m h
    cases l with
    | nil => simp [extMatchesF] at h
    | cons c rest =>
      simp only [extMatchesF] at h
      by_cases hc : (c == '.') = true
      · rw [if_pos hc] at h
        by_cases hr : ((rest.takeWhile okc).take 3).isEmpty = true
        · rw [if_pos hr] at h
          exact ih h
        · rw [if_neg hr] at h
          rcases List.mem_cons.mp h with rfl | h2
          · refine ⟨(rest.takeWhile okc).take 3, rfl, ?_, ?_, ?_⟩
            · intro he
              rw [he] at hr
              simp at hr
            · rw [List.length_take]
              exact Nat.min_le_left _ _
            · intro d hd
              exact List.mem_takeWhile_imp (List.take_subset _ _ hd)
          · exact ih h2
      · rw [if_neg hc] at h
        exact ih h

/-- Every match produced by the extension iterator is a dot followed by
one to three characters from the class `[^:/\0]` (which includes `.`). -/
theorem extMatches_sound {file m : List Char} (h : m ∈ extMatches file) :
    ∃ t, m = '.' :: t ∧ t ≠ [] ∧ t.length ≤ 3 ∧ ∀ c ∈ t, okc c = true :=
  extMatchesF_sound h

/-- C2 (amended): `get_escape_expression_from_file_extension` takes as the
extension the last of the regex's non-overlapping left-to-right
(`find_iter`) matches of `\.[^:/\0]{1,3}` in the display name — each such
match is a dot followed by one to three class characters, which may
themselves include dots, so this can differ from the last matching
substring (`a.b.cpp` yields the single match `.b.c` and fails as
unsupported `.b.c`): `.c`/`.h` give tag `c`, `.cpp`/`.hpp` give tag
`cpp`, any other match fails with the unsupported error carrying the
matched text, and absence of a match fails with the missing error
carrying the file name and path; on the spec's examples: `main.c` gives
`c`, `x.py` fails as unsupported `.py`, `noext` fails as missing. -/
theorem c2_languageTagResolver (file filePath : List Char) :
    (∀ e, (extMatches file).getLast? = some e →
      ((e = ".c".data ∨ e = ".h".data) →
        get_escape_expression_from_file_extension file filePath = .ok "c".data)
      ∧ ((e = ".cpp".data ∨ e = ".hpp".data) →
        get_escape_expression_from_file_extension file filePath = .ok "cpp".data)
      ∧ (¬(e = ".c".data ∨ e = ".h".data) →
          ¬(e = ".cpp".data ∨ e = ".hpp".data) →
          get_escape_expression_from_file_extension file filePath
            = .error (.unsupported e)))
    ∧ ((extMatches file).getLast? = none →
        get_escape_expression_from_file_extension file filePath
          = .error (.missing file filePath))
    ∧ get_escape_expression_from_file_extension "main.c".data "/x/main.c".data
        = .ok "c".data
    ∧ get_escape_expression_from_file_extension "x.py".data "/x.py".data
        = .error (.unsupported ".py".data)
    ∧ get_escape_expression_from_file_extension "noext".data "/noext".data
        = .error (.missing "noext".data "/noext".data)
    ∧ (∀ m ∈ extMatches file,
        ∃ t, m = '.' :: t ∧ t ≠ [] ∧ t.length ≤ 3 ∧ ∀ c ∈ t, okc c = true)
    ∧ get_escape_expression_from_file_extension "a.b.cpp".data "/a.b.cpp".data
        = .error (.unsupported ".b.c".data) := by
  refine ⟨?_, ?_, by decide, by decide, by decide,
    fun m hm => extMatches_sound hm, by decide⟩
  · intro e he
    refine ⟨fun h1 => ?_, fun h2 => ?_, fun hn1 hn2 => ?_⟩
    · simp only [get_escape_expression_from_file_extension, he]
      rw [if_pos h1]
    · simp only [get_escape_expression_from_file_extension, he]
      have hn : ¬(e = ".c".data ∨ e = ".h".data) := by
        rcases h2 with rfl | rfl
        · decide
        · decide
      rw [if_neg hn, if_pos h2]
    · simp only [get_escape_expression_from_file_extension, he]
      rw [if_neg hn1, if_neg hn2]
  · intro he
    simp only [get_escape_expression_from_file_extension, he]

/-- C2 (witness): the extension `.z` of `a.z` is located and rejected as
unsupported. -/
theorem c2_witness :
    get_escape_expression_from_file_extension "a.z".data "p".data
      = .error (.unsupported ".z".data) :=
  ((c2_languageTagResolver "a.z".data "p".data).1 ".z".data (by decide)).2.2
    (by decide) (by decide)

/-! Header layout. -/

theorem digitChar_ne_newline {d : Nat} (h : d < 10) : ¬(digitChar d = '\n') := by
  interval_cases d <;> decide

theorem natCharsF_ne_newline :
    ∀ {fuel n : Nat} {c : Char}, c ∈ natCharsF fuel n → ¬(c = '\n') := by
  intro fuel
  induction fuel with
  | zero => intro n c h; simp [natCharsF] at h
  | succ fuel ih =>
    intro n c h
    simp only [natCharsF] at h
    by_cases hn : n < 10
    · rw [if_pos hn] at h
      simp only [List.mem_singleton] at h
      subst h
      exact digitChar_ne_newline hn
    · rw [if_neg hn] at h
      rcases List.mem_append.mp h with h1 | h2
      · exact ih h1
      · simp only [List.mem_singleton] at h2
        subst h2
        exact digitChar_ne_newline (Nat.mod_lt _ (by omega))

theorem natStr_ne_newline {n : Nat} {c : Char} (h : c ∈ natStr n) :
    ¬(c = '\n') := natCharsF_ne_newline h

theorem no_newline_append {a b : List Char}
    (ha : ∀ c ∈ a, ¬(c = '\n')) (hb : ∀ c ∈ b, ¬(c = '\n')) :
    ∀ c ∈ a ++ b, ¬(c = '\n') := by
  intro c hc
  rcases List.mem_append.mp hc with h | h
  · exact ha c h
  · exact hb c h

theorem linesOf_build (a b : List Char) (h : ∀ c ∈ a, ¬(c = '\n')) :
    linesOf (a ++ '\n' :: b) = a :: linesOf b :=
  splitOnChar_append_cons '\n' a b h

/-- C6: the emitted header is the `# <Kind> week <N>` line (Tutorial when
the flag is set, else Assignment), a blank hard-break line, then the
`Name:`, `Student number:`, `Class:`, `Date:` lines, then a blank
hard-break line, every line carrying the two-trailing-space marker before
its newline. -/
theorem c6_header (args : Args) (date : List Char)
    (hn : ∀ c ∈ args.name, ¬(c = '\n'))
    (hc : ∀ c ∈ args.cls, ¬(c = '\n'))
    (hd : ∀ c ∈ date, ¬(c = '\n')) :
    linesOf (write_header_on_file args date) =
      [(if args.tutorial then "# Tutorial week ".data
          else "# Assignment week ".data) ++ natStr args.week ++ "  ".data,
        "  ".data,
        "Name: ".data ++ args.name ++ "  ".data,
        "Student number: ".data ++ natStr args.student_number ++ "  ".data,
        "Class: ".data ++ args.cls ++ "  ".data,
        "Date: ".data ++ date ++ "  ".data,
        "  ".data,
        []] := by
  have hsp : ("  \n".data : List Char) = "  ".data ++ '\n' :: [] := by decide
  have hlit1 : ∀ c ∈ ("# Tutorial week ".data : List Char), ¬(c = '\n') := by decide
  have hlit2 : ∀ c ∈ ("# Assignment week ".data : List Char), ¬(c = '\n') := by decide
  have hsp2 : ∀ c ∈ ("  ".data : List Char), ¬(c = '\n') := by decide
  have hname : ∀ c ∈ ("Name: ".data : List Char), ¬(c = '\n') := by decide
  have hnum : ∀ c ∈ ("Student number: ".data : List Char), ¬(c = '\n') := by decide
  have hcls : ∀ c ∈ ("Class: ".data : List Char), ¬(c = '\n') := by decide
  have hdate : ∀ c ∈ ("Date: ".data : List Char), ¬(c = '\n') := by decide
  have hweek : ∀ c ∈ natStr args.week, ¬(c = '\n') := fun c h => natStr_ne_newline h
  have hsn : ∀ c ∈ natStr args.student_number, ¬(c = '\n') :=
    fun c h => natStr_ne_newline h
  by_cases ht : args.tutorial
  · have e : write_header_on_file args date =
        ("# Tutorial week ".data ++ natStr args.week ++ "  ".data) ++ '\n' ::
        ("  ".data ++ '\n' ::
        (("Name: ".data ++ args.name ++ "  ".data) ++ '\n' ::
        (("Student number: ".data ++ natStr args.student_number ++ "  ".data) ++ '\n' ::
        (("Class: ".data ++ args.cls ++ "  ".data) ++ '\n' ::
        (("Date: ".data ++ date ++ "  ".data) ++ '\n' ::
        ("  ".data ++ '\n' :: ([] : List Char))))))) := by
      simp only [write_header_on_file, ht, if_true, hsp]
      simp [List.append_assoc]
    rw [e, linesOf_build _ _ (no_newline_append (no_newline_append hlit1 hweek) hsp2),
      linesOf_build _ _ hsp2,
      linesOf_build _ _ (no_newline_append (no_newline_append hname hn) hsp2),
      linesOf_build _ _ (no_newline_append (no_newline_append hnum hsn) hsp2),
      linesOf_build _ _ (no_newline_append (no_newline_append hcls hc) hsp2),
      linesOf_build _ _ (no_newline_append (no_newline_append hdate hd) hsp2),
      linesOf_build _ _ hsp2]
    simp [ht, linesOf, splitOnChar]
  · have e : write_header_on_file args date =
        ("# Assignment week ".data ++ natStr args.week ++ "  ".data) ++ '\n' ::
        ("  ".data ++ '\n' ::
        (("Name: ".data ++ args.name ++ "  ".data) ++ '\n' ::
        (("Student number: ".data ++ natStr args.student_number ++ "  ".data) ++ '\n' ::
        (("Class: ".data ++ args.cls ++ "  ".data) ++ '\n' ::
        (("Date: ".data ++ date ++ "  ".data) ++ '\n' ::
        ("  ".data ++ '\n' :: ([] : List Char))))))) := by
      simp only [write_header_on_file, ht, if_false]
      simp [List.append_assoc]
    rw [e, linesOf_build _ _ (no_newline_append (no_newline_append hlit2 hweek) hsp2),
      linesOf_build _ _ hsp2,
      linesOf_build _ _ (no_newline_append (no_newline_append hname hn) hsp2),
      linesOf_build _ _ (no_newline_append (no_newline_append hnum hsn) hsp2),
      linesOf_build _ _ (no_newline_append (no_newline_append hcls hc) hsp2),
      linesOf_build _ _ (no_newline_append (no_newline_append hdate hd) hsp2),
      linesOf_build _ _ hsp2]
    simp [ht, linesOf, splitOnChar]

/-- C6 (witness): the header of the C4 scenario has exactly the claimed
lines. -/
theorem c6_witness :
    linesOf (write_header_on_file argsC4 "12/10/2025".data) =
      [(if argsC4.tutorial then "# Tutorial week ".data
          else "# Assignment week ".data) ++ natStr argsC4.week ++ "  ".data,
        "  ".data,
        "Name: ".data ++ argsC4.name ++ "  ".data,
        "Student number: ".data ++ natStr argsC4.student_number ++ "  ".data,
        "Class: ".data ++ argsC4.cls ++ "  ".data,
        "Date: ".data ++ "12/10/2025".data ++ "  ".data,
        "  ".data,
        []] :=
  c6_header argsC4 "12/10/2025".data (by decide) (by decide) (by decide)

/-- C5 (counterexample): in the single-file block for `foo.c`, the
`### File:` heading and the opening fence are written to the output buffer
before the input file is opened and read, so "reads the file fully before
writing any part of its block" fails on this run. -/
theorem c5_counterexample :
    noWriteBeforeFirstRead (write_file_block fsFoo "foo.c".data).1 = false := by
  decide

/-- C5 (amended): for every file whose name, language tag and contents
resolve, the block trace is exactly: write the `### File:` heading, write
the opening fence, then read the input file fully, then write its bytes
and the closing fence — so the read precedes the writes of the bytes and
closing fence but follows the heading and fence writes. -/
theorem c5_read_order (fs : List Char → Option (List Char))
    (p name tag contents : List Char)
    (h1 : get_file_name_from_path p = some name)
    (h2 : get_escape_expression_from_file_extension name p = .ok tag)
    (h3 : fs p = some contents) :
    write_file_block fs p =
      ([.write ("### File: ".data ++ name ++ "  \n  \n".data),
        .write ("```".data ++ tag ++ "\n".data),
        .read p, .write contents, .write "```  \n".data], none) := by
  simp only [write_file_block, h1, h2, h3]

/-- C5 (witness): the concrete trace for `foo.c`. -/
theorem c5_witness :
    write_file_block fsFoo "foo.c".data =
      ([.write ("### File: ".data ++ "foo.c".data ++ "  \n  \n".data),
        .write ("```".data ++ "c".data ++ "\n".data),
        .read "foo.c".data, .write "int x;".data,
        .write "```  \n".data], none) :=
  c5_read_order fsFoo "foo.c".data "foo.c".data "c".data "int x;".data
    (by decide) (by decide) (by decide)

/-! Group headings. -/

/-- No input file in `ps` starts with the `## ` heading marker. -/
def contentsOk (fs : List Char → Option (List Char))
    (ps : List (List Char)) : Bool :=
  ps.all fun p =>
    match fs p with
    | some c => !("## ".data.isPrefixOf c)
    | none => true

theorem headingsOf_append (a b : List Event) :
    headingsOf (a ++ b) = headingsOf a ++ headingsOf b := by
  simp [headingsOf, List.filter_append]

theorem isHeadingEv_hash3 (x : List Char) :
    isHeadingEv (.write ('#' :: '#' :: '#' :: x)) = false := rfl

theorem isHeadingEv_tick (x : List Char) :
    isHeadingEv (.write ('`' :: x)) = false := rfl

theorem isHeadingEv_read (p : List Char) : isHeadingEv (.read p) = false := rfl

theorem isHeadingEv_file (r y z : List Char) :
    isHeadingEv (.write ((('#' :: '#' :: '#' :: r) ++ y) ++ z)) = false := rfl

theorem isHeadingEv_fence (r y z : List Char) :
    isHeadingEv (.write ((('`' :: r) ++ y) ++ z)) = false := rfl

theorem wfb_no_heading {fs : List Char → Option (List Char)} {p : List Char}
    (hok : (match fs p with
      | some c => !("## ".data.isPrefixOf c)
      | none => true) = true) :
    headingsOf (write_file_block fs p).1 = [] := by
  simp only [write_file_block]
  cases hg : get_file_name_from_path p with
  | none => rfl
  | some name =>
    cases he : get_escape_expression_from_file_extension name p with
    | error e =>
      simp only [he]
      simp only [headingsOf, List.filter_cons, isHeadingEv_hash3,
        isHeadingEv_file, Bool.false_eq_true, if_false, List.filter_nil,
        List.map_nil]
    | ok tag =>
      simp only [he]
      cases hfs : fs p with
      | none =>
        simp only [hfs]
        simp only [headingsOf, List.filter_cons, isHeadingEv_hash3,
          isHeadingEv_file, isHeadingEv_fence, isHeadingEv_tick,
          Bool.false_eq_true, if_false, List.filter_nil, List.map_nil]
      | some contents =>
        rw [hfs] at hok
        simp only [Bool.not_eq_eq_eq_not, Bool.not_true] at hok
        have hokE : isHeadingEv (Event.write contents) = false := by
          simp [isHeadingEv, hok]
        simp only [hfs]
        simp only [headingsOf, List.filter_cons, isHeadingEv_hash3,
          isHeadingEv_file, isHeadingEv_fence, isHeadingEv_tick,
          isHeadingEv_read, hokE, Bool.false_eq_true, if_false,
          List.filter_nil, List.map_nil]

theorem write_paths_no_heading {fs : List Char → Option (List Char)}
    {g : List (List Char)} (hok : contentsOk fs g = true) :
    headingsOf (write_paths fs g).1 = [] := by
  induction g with
  | nil => rfl
  | cons p ps ih =>
    simp only [contentsOk, List.all_cons, Bool.and_eq_true] at hok
    obtain ⟨hp, hps⟩ := hok
    simp only [write_paths]
    cases hb : (write_file_block fs p).2 with
    | some e => exact wfb_no_heading hp
    | none =>
      rw [headingsOf_append, wfb_no_heading hp, ih hps]
      rfl

theorem heading_is_heading (tutorial : Bool) (i : Nat) :
    isHeadingEv (.write (group_heading tutorial i)) = true := by
  cases tutorial <;> rfl

theorem write_groups_headings :
    ∀ {fs : List Char → Option (List Char)} {tutorial : Bool} {i : Nat}
      {gs : List (List (List Char))},
      (write_groups fs tutorial i gs).2 = none →
      contentsOk fs gs.flatten = true →
      headingsOf (write_groups fs tutorial i gs).1 =
        (List.range gs.length).map (fun k => group_heading tutorial (i + k)) := by
  intro fs tutorial i gs
  induction gs generalizing i with
  | nil => intro _ _; rfl
  | cons g gs ih =>
    intro h hok
    have hokg : contentsOk fs g = true := by
      simp only [contentsOk, List.flatten_cons, List.all_append,
        Bool.and_eq_true] at hok
      exact hok.1
    have hokgs : contentsOk fs gs.flatten = true := by
      simp only [contentsOk, List.flatten_cons, List.all_append,
        Bool.and_eq_true] at hok
      exact hok.2
    simp only [write_groups] at h ⊢
    cases hr : (write_paths fs g).2 with
    | some e => rw [hr] at h; dsimp only at h; cases h
    | none =>
      rw [hr] at h
      dsimp only at h
      have hcons : (Event.write (group_heading tutorial i) :: (write_paths fs g).1
          ++ (write_groups fs tutorial (i + 1) gs).1)
          = [Event.write (group_heading tutorial i)] ++ ((write_paths fs g).1
          ++ (write_groups fs tutorial (i + 1) gs).1) := rfl
      rw [hcons, headingsOf_append, headingsOf_append,
        write_paths_no_heading hokg, ih h hokgs]
      have hone : headingsOf [Event.write (group_heading tutorial i)]
          = [group_heading tutorial i] := by
        simp [headingsOf, heading_is_heading, eventBytes]
      rw [hone]
      simp only [List.length_cons, List.range_succ_eq_map, List.map_cons,
        List.map_map, List.nil_append, List.singleton_append, Nat.add_zero]
      congr 1
      apply List.map_congr_left
      intro k _
      simp only [Function.comp_apply]
      congr 1
      omega

/-- C7: on a successful run whose input files do not themselves start with
the `## ` marker, the writer emits exactly one group heading per group,
numbered from 1 in the order the groups were supplied. -/
theorem c7_group_numbering (fs : List Char → Option (List Char)) (args : Args)
    (h : (write_assignments fs args).2 = none)
    (hok : contentsOk fs
      (args.assignment_files.map AssignmentFiles.paths).flatten = true) :
    headingsOf (write_assignments fs args).1 =
      (List.range args.assignment_files.length).map
        (fun k => group_heading args.tutorial (1 + k)) := by
  unfold write_assignments at h ⊢
  rw [write_groups_headings h hok, List.length_map]

/-- The two-group end-to-end scenario: groups `[a.c]` and `[b.c]`. -/
def fs2 (p : List Char) : Option (List Char) :=
  if p = "a.c".data then some "x".data
  else if p = "b.c".data then some "y".data else none

/-- Arguments with two groups, tutorial flag unset. -/
def args2 : Args :=
  ⟨"A".data, "B".data, 1, [⟨["a.c".data]⟩, ⟨["b.c".data]⟩], false, 3, none⟩

/-- C7 (witness): two groups produce exactly the headings
`## Assignment 1` and `## Assignment 2`, in order. -/
theorem c7_witness :
    headingsOf (write_assignments fs2 args2).1 =
      ["## Assignment 1  \n  \n".data, "## Assignment 2  \n  \n".data] :=
  (c7_group_numbering fs2 args2 (by decide) (by decide)).trans (by decide)

/-! Substring and fence helpers for the end-to-end claim. -/

theorem isPrefixOf_extend {pat a : List Char} (h : pat.isPrefixOf a = true)
    (b : List Char) : pat.isPrefixOf (a ++ b) = true := by
  induction pat generalizing a with
  | nil => cases hab : a ++ b <;> rfl
  | cons x ps ih =>
    cases a with
    | nil => simp [List.isPrefixOf] at h
    | cons y as =>
      have h2 : (x == y && ps.isPrefixOf as) = true := h
      rw [Bool.and_eq_true] at h2
      show (x == y && ps.isPrefixOf (as ++ b)) = true
      rw [Bool.and_eq_true]
      exact ⟨h2.1, ih h2.2⟩

theorem hasSub_of_isPrefixOf {pat l : List Char}
    (h : pat.isPrefixOf l = true) : hasSub pat l = true := by
  cases l with
  | nil => simpa [hasSub, List.tails] using h
  | cons a as => simp [hasSub, List.tails_cons, List.any_cons, h]

theorem hasSub_cons {pat t : List Char} (c : Char)
    (h : hasSub pat t = true) : hasSub pat (c :: t) = true := by
  simp only [hasSub] at h ⊢
  rw [List.tails_cons, List.any_cons, h]
  simp

theorem hasSub_append_right {pat t : List Char} (a : List Char)
    (h : hasSub pat t = true) : hasSub pat (a ++ t) = true := by
  induction a with
  | nil => simpa using h
  | cons x a ih => exact hasSub_cons x ih

theorem isClosingFence_cons_of (c : Char) (r : List Char)
    (h1 : (c == ' ') = false) (h2 : (c == '`') = false) :
    isClosingFence (c :: r) = false := by
  simp only [isClosingFence, List.takeWhile_cons, List.dropWhile_cons,
    h1, h2, Bool.false_eq_true, if_false]
  simp

instance c4ClaimDecidable (date : List Char) : Decidable (c4ClaimAt date) := by
  unfold c4ClaimAt
  infer_instance

/-- C4 (counterexample): with `foo.c` holding exactly the six bytes
`int x;` (no trailing newline), the closing fence text is appended on the
same line as the file bytes, so the produced document contains no closing
fence standing on a line of its own and the claimed block shape fails. -/
theorem c4_counterexample : ¬c4ClaimAt "12/10/2025".data := by decide

/-- C4 (amended): the run writes to `week3.md`, succeeds, the document
begins with `# Assignment week 3` and contains the block `` ```c ``
newline `int x;` followed *immediately, on the same line,* by the closing
fence text (the code appends ```` ```  \n ```` directly after the file
bytes, which here lack a trailing newline), so no line of the document is
a closing fence on its own. -/
theorem c4_endToEnd (date : List Char) (hd : ∀ c ∈ date, ¬(c = '\n')) :
    (run_main fsFoo argsC4 date).1 = "week3.md".data
    ∧ (run_main fsFoo argsC4 date).2.2 = none
    ∧ "# Assignment week 3".data.isPrefixOf
        (run_main fsFoo argsC4 date).2.1 = true
    ∧ hasSub "```c\nint x;```  \n".data (run_main fsFoo argsC4 date).2.1 = true
    ∧ (linesOf (run_main fsFoo argsC4 date).2.1).all
        (fun l => !isClosingFence l) = true := by
  have hsplitd : (run_main fsFoo argsC4 date).2.1
      = write_header_on_file argsC4 date
        ++ docOf (write_assignments fsFoo argsC4).1 := rfl
  have hb : docOf (write_assignments fsFoo argsC4).1
      = "## Assignment 1  ".data ++ '\n' :: ("  ".data ++ '\n' ::
        ("### File: foo.c  ".data ++ '\n' :: ("  ".data ++ '\n' ::
        ("```c".data ++ '\n' :: ("int x;```  ".data ++ '\n' ::
        ([] : List Char)))))) := by decide
  have hn3 : natStr 3 = "3".data := by decide
  have hn1 : natStr 1 = "1".data := by decide
  have hsp : ("  \n".data : List Char) = "  ".data ++ '\n' :: [] := by decide
  have e : (run_main fsFoo argsC4 date).2.1 =
      ("# Assignment week ".data ++ "3".data ++ "  ".data) ++ '\n' ::
      ("  ".data ++ '\n' ::
      (("Name: ".data ++ "A".data ++ "  ".data) ++ '\n' ::
      (("Student number: ".data ++ "1".data ++ "  ".data) ++ '\n' ::
      (("Class: ".data ++ "B".data ++ "  ".data) ++ '\n' ::
      (("Date: ".data ++ date ++ "  ".data) ++ '\n' ::
      ("  ".data ++ '\n' ::
      ("## Assignment 1  ".data ++ '\n' ::
      ("  ".data ++ '\n' ::
      ("### File: foo.c  ".data ++ '\n' ::
      ("  ".data ++ '\n' ::
      ("```c".data ++ '\n' ::
      ("int x;```  ".data ++ '\n' :: ([] : List Char))))))))))))) := by
    rw [hsplitd, hb]
    simp only [write_header_on_file, argsC4, Bool.false_eq_true, if_false,
      hn3, hn1, hsp]
    simp [List.append_assoc]
  refine ⟨rfl, rfl, ?_, ?_, ?_⟩
  · rw [e]
    exact isPrefixOf_extend (by decide) _
  · rw [e]
    apply hasSub_append_right
    apply hasSub_cons
    apply hasSub_append_right
    apply hasSub_cons
    apply hasSub_append_right
    apply hasSub_cons
    apply hasSub_append_right
    apply hasSub_cons
    apply hasSub_append_right
    apply hasSub_cons
    apply hasSub_append_right
    apply hasSub_cons
    apply hasSub_append_right
    apply hasSub_cons
    apply hasSub_append_right
    apply hasSub_cons
    apply hasSub_append_right
    apply hasSub_cons
    apply hasSub_append_right
    apply hasSub_cons
    apply hasSub_append_right
    apply hasSub_cons
    decide
  · rw [e]
    have hdl : ∀ c ∈ "Date: ".data ++ date ++ "  ".data, ¬(c = '\n') :=
      no_newline_append (no_newline_append (by decide) hd) (by decide)
    rw [show linesOf = splitOnChar '\n' from rfl]
    rw [splitOnChar_append_cons _ _ _ (by decide),
      splitOnChar_append_cons _ _ _ (by decide),
      splitOnChar_append_cons _ _ _ (by decide),
      splitOnChar_append_cons _ _ _ (by decide),
      splitOnChar_append_cons _ _ _ (by decide),
      splitOnChar_append_cons _ _ _ hdl,
      splitOnChar_append_cons _ _ _ (by decide),
      splitOnChar_append_cons _ _ _ (by decide),
      splitOnChar_append_cons _ _ _ (by decide),
      splitOnChar_append_cons _ _ _ (by decide),
      splitOnChar_append_cons _ _ _ (by decide),
      splitOnChar_append_cons _ _ _ (by decide),
      splitOnChar_append_cons _ _ _ (by decide)]
    rw [show splitOnChar '\n' ([] : List Char) = [[]] from rfl]
    rw [List.all_eq_true]
    intro l hl
    simp only [List.mem_cons, List.not_mem_nil, or_false] at hl
    rcases hl with rfl | rfl | rfl | rfl | rfl | rfl | rfl | rfl | rfl
      | rfl | rfl | rfl | rfl | rfl
    · decide
    · decide
    · decide
    · decide
    · decide
    · rw [Bool.not_eq_eq_eq_not, Bool.not_true]
      exact isClosingFence_cons_of 'D' _ (by decide) (by decide)
    · decide
    · decide
    · decide
    · decide
    · decide
    · decide
    · decide
    · decide

/-- C4 (witness): instantiated at a representative date. -/
theorem c4_witness :
    (run_main fsFoo argsC4 "12/10/2025".data).1 = "week3.md".data :=
  (c4_endToEnd "12/10/2025".data (by decide)).1

end MdGen
